import Mathlib

set_option autoImplicit false

/-!
Verification of the release-boss version-decision and template-rewrite
engines.  JavaScript strings are modelled as lists of characters, and the
string primitives used by the source (`indexOf`-style first-occurrence
search, `trim`, `split`, global `replace`) are defined here so that every
definition evaluates inside the kernel.
-/

namespace ReleaseBoss

/-- Model of a JavaScript string: a list of characters. -/
abbrev Str := List Char

/-- First occurrence of `pat` in `s`, as the text before the occurrence and
the text after it (the model of `String.prototype.indexOf` plus the two
`substring` calls the source performs around the found index).  Returns
`none` when `pat` does not occur. -/
def findSplit (pat : Str) : Str → Option (Str × Str)
  | [] => if pat.isPrefixOf ([] : Str) then some ([], []) else none
  | c :: rest =>
    if pat.isPrefixOf (c :: rest) then some ([], (c :: rest).drop pat.length)
    else (findSplit pat rest).map (fun p => (c :: p.1, p.2))

/-- Model of `String.prototype.includes`. -/
def hasSub (pat s : Str) : Bool := (findSplit pat s).isSome

/-- Whitespace characters recognised by the model of `String.prototype.trim`. -/
def isJsSpace (c : Char) : Bool := c = ' ' || c = '\t' || c = '\n' || c = '\r'

/-- Model of `String.prototype.trim`. -/
def trim (s : Str) : Str :=
  ((s.dropWhile isJsSpace).reverse.dropWhile isJsSpace).reverse

/-- Model of `String.prototype.split` with a one-character separator.  It
never returns the empty list: splitting the empty string yields `[""]`,
exactly as in JavaScript. -/
def splitOnChar (sep : Char) : Str → List Str
  | [] => [[]]
  | c :: rest =>
    match splitOnChar sep rest with
    | [] => [[c]]
    | h :: t => if c = sep then [] :: h :: t else (c :: h) :: t

/-- Model of `Array.prototype.join` with a one-character separator. -/
def joinWith (sep : Char) : List Str → Str
  | [] => []
  | [l] => l
  | l :: l' :: ls => l ++ sep :: joinWith sep (l' :: ls)

/-- Split a rendered chunk into its lines (`content.split('\n')`). -/
def splitLines (s : Str) : List Str := splitOnChar '\n' s

/-- Join lines back into file content (`outputLines.join('\n')`). -/
def joinLines (ls : List Str) : Str := joinWith '\n' ls

/-- Fuel-driven worker for `replaceAll`; the fuel is an upper bound on the
number of replacements still possible. -/
def replaceAllGo (pat repl : Str) : Nat → Str → Str
  | 0, s => s
  | fuel + 1, s =>
    match findSplit pat s with
    | none => s
    | some (a, b) => a ++ repl ++ replaceAllGo pat repl fuel b

/-- Model of `String.prototype.replace` with a global literal pattern:
every non-overlapping occurrence of `pat`, scanning left to right, is
replaced by `repl`. -/
def replaceAll (pat repl s : Str) : Str := replaceAllGo pat repl s.length s

/-- The render context of the template engine: the full version string and
its three components, all as strings (§ RenderContext of the spec). -/
structure RenderCtx where
  version : Str
  major : Str
  minor : Str
  patch : Str
deriving DecidableEq

/-- `renderTemplate` from `templateProcessor`: textual substitution of the
four fixed placeholders, in the source's order (version, major, minor,
patch). -/
def renderTemplate (ctx : RenderCtx) (template : Str) : Str :=
  replaceAll (("\x7b\x7bpatch\x7d\x7d").toList) ctx.patch
    (replaceAll (("\x7b\x7bminor\x7d\x7d").toList) ctx.minor
      (replaceAll (("\x7b\x7bmajor\x7d\x7d").toList) ctx.major
        (replaceAll (("\x7b\x7bversion\x7d\x7d").toList) ctx.version template)))

/-- The opening marker literal `%%release-manager:` of the version-file
engine. -/
def startMarker : Str := ("%%release-manager:").toList

/-- The closing marker literal `%%`. -/
def closeMarker : Str := ("%%").toList

/-- Result of scanning forward for the line holding the closing `%%` marker
of a multi-line template: the marker-free lines before it, the closing line
itself, the part of the closing line before `%%`, and the remaining lines. -/
structure CloserSplit where
  pre : List Str
  closerLine : Str
  closerBefore : Str
  post : List Str
deriving DecidableEq

/-- Scan forward line by line for the first line containing `%%` (the inner
`while` loop of `processVersionFiles` handling multi-line templates). -/
def findCloser : List Str → Option CloserSplit
  | [] => none
  | l :: ls =>
    match findSplit closeMarker l with
    | some p => some ⟨[], l, p.1, ls⟩
    | none => (findCloser ls).map (fun r => { r with pre := l :: r.pre })

/-- Number of implementation lines to discard after a template: up to `n`
leading lines, stopping early at a line containing the start marker (the
implementation-counting loop of `processVersionFiles`, whose result is
`Math.min(renderedLines.length, implementationLines.length)`). -/
def skipCount : List Str → Nat → Nat
  | _, 0 => 0
  | [], _ + 1 => 0
  | l :: ls, n + 1 => if hasSub startMarker l then 0 else skipCount ls n + 1

/-- Fuel-driven worker of the line loop of `processVersionFiles`.  Besides
the output lines it returns a cleanliness flag: `true` when no re-rendered
implementation line contains the start marker (always the case for version
strings free of `%`).  The fuel is an upper bound on the number of lines
still to process; the wrapper passes the list length. -/
def processVersionLinesGo (ctx : RenderCtx) : Nat → List Str → List Str × Bool
  | 0, ls => (ls, true)
  | _ + 1, [] => ([], true)
  | fuel + 1, line :: rest =>
    match findSplit startMarker line with
    | none =>
      let r := processVersionLinesGo ctx fuel rest
      (line :: r.1, r.2)
    | some q =>
      match findSplit closeMarker q.2 with
      | some p =>
        let rendered := splitLines (renderTemplate ctx (trim p.1))
        let k := skipCount rest rendered.length
        let r := processVersionLinesGo ctx fuel (rest.drop k)
        (line :: (rendered ++ r.1),
          (rendered.all (fun l => !hasSub startMarker l)) && r.2)
      | none =>
        match findCloser rest with
        | none =>
          let r := processVersionLinesGo ctx fuel rest
          (line :: r.1, r.2)
        | some cs =>
          let tmpl := trim (joinLines
            (trim q.2 :: (cs.pre.map trim ++ [trim cs.closerBefore])))
          let rendered := splitLines (renderTemplate ctx tmpl)
          let k := skipCount cs.post rendered.length
          let r := processVersionLinesGo ctx fuel (cs.post.drop k)
          (line :: (cs.pre ++ cs.closerLine :: (rendered ++ r.1)),
            (rendered.all (fun l => !hasSub startMarker l)) && r.2)

/-- The line loop of `processVersionFiles` on a list of lines. -/
def processVersionLines (ctx : RenderCtx) (ls : List Str) : List Str × Bool :=
  processVersionLinesGo ctx ls.length ls

/-- The content transformation performed by `processVersionFiles` on one
file: split into lines, run the template scanner, join with newlines. -/
def processVersionContent (ctx : RenderCtx) (content : Str) : Str × Bool :=
  let r := processVersionLines ctx (splitLines content)
  (joinLines r.1, r.2)

/-- Decimal digits of a natural number, with fuel (`n + 1` digits always
suffice); model of the decimal rendering performed by JavaScript template
literals on a number. -/
def natCharsGo : Nat → Nat → Str
  | 0, _ => []
  | fuel + 1, n =>
    if n < 10 then [Nat.digitChar n]
    else natCharsGo fuel (n / 10) ++ [Nat.digitChar (n % 10)]

/-- Decimal rendering of a natural number. -/
def natChars (n : Nat) : Str := natCharsGo (n + 1) n

/-- Numeric value of a digit string. -/
def digitsVal (s : Str) : Nat := s.foldl (fun acc c => acc * 10 + (c.toNat - 48)) 0

/-- Model of JavaScript `Number()` conversion for the inputs arising here:
the empty string converts to `0`, a canonical decimal digit string to its
value, and anything else to `NaN` (represented as `none`). -/
def jsNumber (s : Str) : Option Nat :=
  if s = [] then some 0
  else if s.all Char.isDigit then some (digitsVal s) else none

/-- Render an optional number the way a JavaScript template literal renders
a number that may be `NaN`. -/
def renderNum : Option Nat → Str
  | some n => natChars n
  | none => ("NaN").toList

/-- Canonical `M.m.p` version string. -/
def verStr (major minor patch : Nat) : Str :=
  natChars major ++ '.' :: natChars minor ++ '.' :: natChars patch

/-- `applyBumpCommand` from `bumpCommands`: parse the version string into
numeric components (`split('.').map(Number)`, missing components behaving
as `NaN`), leave the version unchanged when it already sits at the
requested boundary, bump otherwise, and fall through to the unchanged
version for any unrecognised bump kind. -/
def applyBumpCommand (currentVersion : Str) (bumpType : Str) : Str :=
  let comps := splitOnChar '.' currentVersion
  let major := (comps.get? 0).bind jsNumber
  let minor := (comps.get? 1).bind jsNumber
  let patch := (comps.get? 2).bind jsNumber
  if bumpType = ("minor").toList ∧ patch = some 0 then currentVersion
  else if bumpType = ("major").toList ∧ minor = some 0 ∧ patch = some 0 then
    currentVersion
  else if bumpType = ("minor").toList then
    renderNum major ++ '.' :: renderNum (minor.map (fun n => n + 1)) ++ ('.' :: ['0'])
  else if bumpType = ("major").toList then
    renderNum (major.map (fun n => n + 1)) ++ ('.' :: '0' :: '.' :: ['0'])
  else currentVersion

/-- A parsed conventional commit as consumed by the commit analyzer: the
optional type token, the optional scope, and the titles of the footer
notes produced by the parser. -/
structure ParsedCommit where
  type : Option Str
  scope : Option Str
  notes : List Str
deriving DecidableEq

/-- Version-bump severities. -/
inductive Bump where
  | major
  | minor
  | patch
deriving DecidableEq

/-- Model of the truthiness-guarded `parsedCommit.type.endsWith('!')`
check: `null` and the empty string are falsy. -/
def hasBreakingChangeMarker (c : ParsedCommit) : Bool :=
  match c.type with
  | none => false
  | some t =>
    match t.reverse with
    | [] => false
    | last :: _ => last = '!'

/-- Model of the breaking-note check: some note title equals
`BREAKING CHANGE` or `BREAKING-CHANGE`. -/
def hasBreakingChangeNote (c : ParsedCommit) : Bool :=
  c.notes.any (fun n =>
    n = ("BREAKING CHANGE").toList || n = ("BREAKING-CHANGE").toList)

/-- `getBumpTypeForCommit` from `commitAnalyzer`: breaking changes are
major; `feat` is minor; `fix`, `perf`, `refactor` are patch; the listed
no-bump types and every other type, including a missing one, yield `none`
(the source's `null`). -/
def getBumpTypeForCommit (c : ParsedCommit) : Option Bump :=
  if hasBreakingChangeMarker c || hasBreakingChangeNote c then some .major
  else if c.type = some (("feat").toList) then some .minor
  else if c.type = some (("fix").toList) ∨ c.type = some (("perf").toList)
      ∨ c.type = some (("refactor").toList) then some .patch
  else none

/-- `isExcludedFromChangelog` from `commitAnalyzer`: excluded types
(exactly `chore`) or the scope `no-release`. -/
def isExcludedFromChangelog (c : ParsedCommit) : Bool :=
  if c.type = some (("chore").toList) then true
  else if c.scope = some (("no-release").toList) then true
  else false

/-- The per-commit analysis step of `analyzeCommits`: attach the bump type
to each commit, then filter out the excluded commits.  The GitHub commit
fetching and message parsing around it are external collaborators; the
commits arrive here already parsed. -/
def analyzeCommits (cs : List ParsedCommit) : List (ParsedCommit × Option Bump) :=
  (cs.map (fun c => (c, getBumpTypeForCommit c))).filter
    (fun rc => !isExcludedFromChangelog rc.1)

/-- A semantic version triple.  Prerelease suffixes are not modelled (the
spec leaves them out of scope), so comparison is lexicographic on the
triple. -/
structure SemVer where
  major : Nat
  minor : Nat
  patch : Nat
deriving DecidableEq

/-- Model of `semver.lt`: strict lexicographic order on the triple. -/
def semverLt (a b : SemVer) : Bool :=
  decide (a.major < b.major ∨ (a.major = b.major ∧
    (a.minor < b.minor ∨ (a.minor = b.minor ∧ a.patch < b.patch))))

/-- Model of `semver.inc`. -/
def semverInc (v : SemVer) : Bump → SemVer
  | .major => ⟨v.major + 1, 0, 0⟩
  | .minor => ⟨v.major, v.minor + 1, 0⟩
  | .patch => ⟨v.major, v.minor, v.patch + 1⟩

/-- The pre-1.0 dampening step of `determineVersionBump`, exactly as the
source writes it inline: when `currentVersion < 1.0.0`, a major bump
becomes minor and a minor bump becomes patch; otherwise the kind is kept. -/
def dampenKind (currentVersion : SemVer) (k : Bump) : Bump :=
  if semverLt currentVersion ⟨1, 0, 0⟩ then
    match k with
    | .major => .minor
    | .minor => .patch
    | .patch => .patch
  else k

/-- Highest-impact bump among the analyzed commits' bump types (the
`bumpTypes.includes` cascade of `determineVersionBump`). -/
def aggregateBumps (bs : List (Option Bump)) : Option Bump :=
  let ts := bs.filterMap id
  if ts.contains Bump.major then some .major
  else if ts.contains Bump.minor then some .minor
  else if ts.contains Bump.patch then some .patch
  else none

/-- The decision record returned by `determineVersionBump` (the redundant
copies of the new version's components in the source's return object are
omitted). -/
structure BumpDecision where
  bumpType : Option Bump
  newVersion : SemVer
  currentVersion : SemVer
deriving DecidableEq

/-- The pure core of `determineVersionBump`: the current version, fetched
from repository tags by an external collaborator in the source, is a
parameter; `releaseAs` is the optional `config.releaseAs` override, applied
only when it names a valid bump kind.  The returned `bumpType` is the
pre-dampening kind, as in the source. -/
def determineVersionBump (bumps : List (Option Bump)) (currentVersion : SemVer)
    (releaseAs : Option Str) : BumpDecision :=
  let bt0 := aggregateBumps bumps
  let bt :=
    match releaseAs with
    | none => bt0
    | some r =>
      if r = ("major").toList then some Bump.major
      else if r = ("minor").toList then some Bump.minor
      else if r = ("patch").toList then some Bump.patch
      else bt0
  match bt with
  | none => ⟨none, currentVersion, currentVersion⟩
  | some k => ⟨some k, semverInc currentVersion (dampenKind currentVersion k), currentVersion⟩

/-- The commit-to-version pipeline: analyze the commits (classify and drop
excluded ones), then decide the bump from their bump types. -/
def releasePipeline (cs : List ParsedCommit) (currentVersion : SemVer)
    (releaseAs : Option Str) : BumpDecision :=
  determineVersionBump ((analyzeCommits cs).map (fun rc => rc.2)) currentVersion releaseAs

/-- State of one path in the modelled file system: absent, present but
failing on read, or readable with some content. -/
inductive FileState where
  | missing
  | unreadable (content : Str)
  | readable (content : Str)
deriving DecidableEq

/-- The file-system state threaded through the batch processors, together
with a per-path write-permission flag. -/
structure FS where
  state : Str → FileState
  writeOk : Str → Bool

/-- Writing a file makes its new content readable at that path. -/
def FS.write (fs : FS) (p : Str) (content : Str) : FS :=
  ⟨fun q => if q = p then .readable content else fs.state q, fs.writeOk⟩

/-- The render context `processVersionFiles` and `processTemplateFiles`
build from the version string: `const [major, minor, patch] =
version.split('.')`, a missing component being JavaScript `undefined`,
which renders as the string `undefined`. -/
def ctxOfVersion (version : Str) : RenderCtx :=
  let comps := splitOnChar '.' version
  ⟨version,
    (comps.get? 0).getD (("undefined").toList),
    (comps.get? 1).getD (("undefined").toList),
    (comps.get? 2).getD (("undefined").toList)⟩

/-- The batch loop of `processVersionFiles` over the modelled file system.
A path whose `fs.access` fails (missing file) is logged and skipped; a
read failure or a write failure is re-thrown by the enclosing catch block,
aborting the batch (modelled as `Except.error`).  Absolute-path resolution
is modelled as the identity. -/
def processVersionFiles (version : Str) (files : List Str) (fs : FS) :
    Except Unit (List Str × FS) :=
  match files with
  | [] => .ok ([], fs)
  | file :: rest =>
    match fs.state file with
    | .missing => processVersionFiles version rest fs
    | .unreadable _ => .error ()
    | .readable content =>
      let newContent := (processVersionContent (ctxOfVersion version) content).1
      if fs.writeOk file then
        match processVersionFiles version rest (fs.write file newContent) with
        | .ok r => .ok (file :: r.1, r.2)
        | .error e => .error e
      else .error ()

/-- Split a path's basename at the last dot into name and extension,
following Node's `path.parse` for ordinary paths: no dot, or a dot only at
the first position of the basename, means an empty extension; otherwise
the extension starts at the last dot. -/
def splitExt (base : Str) : Str × Str :=
  let extRev := base.reverse.takeWhile (fun c => c ≠ '.')
  if extRev.length = base.length then (base, [])
  else if base.length = extRev.length + 1 then (base, [])
  else (base.take (base.length - extRev.length - 1),
        base.drop (base.length - extRev.length - 1))

/-- Basename of a path: the suffix after the last slash. -/
def baseNameOf (p : Str) : Str := (p.reverse.takeWhile (fun c => c ≠ '/')).reverse

/-- Directory part of a path, slash included (so that the path is the
directory part followed by the basename). -/
def dirPartOf (p : Str) : Str := p.take (p.length - (baseNameOf p).length)

/-- Output path derivation of `processTemplateFiles`: a path containing
`.tpl` has every occurrence of `.tpl` removed; otherwise `.new` is
inserted before the extension (`path.parse` and `path.join` are modelled
for ordinary paths: the basename is rewritten in place). -/
def outputPathFor (templateFile : Str) : Str :=
  if hasSub ((".tpl").toList) templateFile then
    replaceAll ((".tpl").toList) [] templateFile
  else
    let ne := splitExt (baseNameOf templateFile)
    dirPartOf templateFile ++ ne.1 ++ ((".new").toList) ++ ne.2

/-- The batch loop of `processTemplateFiles` over the modelled file system:
render the whole file and write it to the derived output path.  Failure
semantics mirror `processVersionFiles`. -/
def processTemplateFiles (version : Str) (files : List Str) (fs : FS) :
    Except Unit (List Str × FS) :=
  match files with
  | [] => .ok ([], fs)
  | templateFile :: rest =>
    match fs.state templateFile with
    | .missing => processTemplateFiles version rest fs
    | .unreadable _ => .error ()
    | .readable content =>
      let outputFile := outputPathFor templateFile
      let renderedContent := renderTemplate (ctxOfVersion version) content
      if fs.writeOk outputFile then
        match processTemplateFiles version rest (fs.write outputFile renderedContent) with
        | .ok r => .ok (outputFile :: r.1, r.2)
        | .error e => .error e
      else .error ()

/-! ### Properties of the string-search primitive -/

theorem isPrefixOf_eq (l1 l2 : Str) : l1.isPrefixOf l2 = true ↔ l1 <+: l2 :=
  List.isPrefixOf_iff_prefix

theorem findSplit_sound (pat : Str) : ∀ (s : Str) (p : Str × Str),
    findSplit pat s = some p → s = p.1 ++ pat ++ p.2
  | [], p, h => by
    simp only [findSplit] at h
    split at h
    · next hp =>
      have hpat : pat = [] := List.prefix_nil.mp ((isPrefixOf_eq _ _).mp hp)
      cases h
      simp [hpat]
    · exact absurd h (by simp)
  | c :: rest, p, h => by
    simp only [findSplit] at h
    split at h
    · next hp =>
      obtain ⟨t, ht⟩ := (isPrefixOf_eq _ _).mp hp
      cases h
      rw [← ht]
      simp [List.drop_left]
    · next hp =>
      cases hf : findSplit pat rest with
      | none => rw [hf] at h; exact absurd h (by simp)
      | some q =>
        rw [hf] at h
        cases h
        have := findSplit_sound pat rest q hf
        simp [this]

theorem findSplit_isSome_of_isPrefixOf (pat s : Str) (h : pat.isPrefixOf s = true) :
    (findSplit pat s).isSome = true := by
  cases s with
  | nil => simp [findSplit, h]
  | cons c rest => simp [findSplit, h]

theorem findSplit_isSome_append (pat : Str) : ∀ (a b : Str),
    (findSplit pat (a ++ pat ++ b)).isSome = true
  | [], b => by
    rw [List.nil_append]
    exact findSplit_isSome_of_isPrefixOf pat _
      ((isPrefixOf_eq _ _).mpr (List.prefix_append _ _))
  | c :: a, b => by
    have ih := findSplit_isSome_append pat a b
    rw [List.cons_append, List.cons_append]
    simp only [findSplit]
    split
    · simp
    · cases hf : findSplit pat (a ++ pat ++ b) with
      | none => rw [hf] at ih; simp at ih
      | some q => simp [hf]

theorem findSplit_none_of_part (pat tail l : Str)
    (h : findSplit pat l = none) : findSplit (pat ++ tail) l = none := by
  cases hf : findSplit (pat ++ tail) l with
  | none => rfl
  | some p =>
    exfalso
    have hl := findSplit_sound _ _ _ hf
    have hl2 : l = p.1 ++ pat ++ (tail ++ p.2) := by
      rw [hl]; simp [List.append_assoc]
    have hsome := findSplit_isSome_append pat p.1 (tail ++ p.2)
    rw [← hl2, h] at hsome
    simp at hsome

theorem startMarker_eq : startMarker = closeMarker ++ ("release-manager:").toList := by
  decide

theorem no_close_no_start (l : Str) (h : findSplit closeMarker l = none) :
    findSplit startMarker l = none := by
  rw [startMarker_eq]
  exact findSplit_none_of_part _ _ _ h

/-! ### Properties of splitting and joining lines -/

theorem splitOnChar_cons (sep c : Char) (rest : Str) (a : Str) (t : List Str)
    (h : splitOnChar sep rest = a :: t) :
    splitOnChar sep (c :: rest) =
      if c = sep then [] :: a :: t else (c :: a) :: t := by
  simp only [splitOnChar, h]

theorem splitOnChar_ne_nil (sep : Char) : ∀ (s : Str), splitOnChar sep s ≠ []
  | [] => by simp [splitOnChar]
  | c :: rest => by
    cases h : splitOnChar sep rest with
    | nil => exact absurd h (splitOnChar_ne_nil sep rest)
    | cons a t =>
      rw [splitOnChar_cons sep c rest a t h]
      split <;> simp

theorem splitOnChar_not_mem (sep : Char) : ∀ (s : Str),
    ∀ l ∈ splitOnChar sep s, sep ∉ l
  | [] => by simp [splitOnChar]
  | c :: rest => by
    have ih := splitOnChar_not_mem sep rest
    cases h : splitOnChar sep rest with
    | nil => exact absurd h (splitOnChar_ne_nil sep rest)
    | cons a t =>
      rw [h] at ih
      rw [splitOnChar_cons sep c rest a t h]
      by_cases hc : c = sep
      · rw [if_pos hc]
        intro l hl
        rcases List.mem_cons.mp hl with hl | hl
        · subst hl; simp
        · exact ih l hl
      · rw [if_neg hc]
        intro l hl
        rcases List.mem_cons.mp hl with hl | hl
        · subst hl
          intro hmem
          rcases List.mem_cons.mp hmem with hm | hm
          · exact hc hm.symm
          · exact ih a (List.mem_cons_self a t) hm
        · exact ih l (List.mem_cons_of_mem a hl)

theorem splitOnChar_of_not_mem (sep : Char) : ∀ (l : Str), sep ∉ l →
    splitOnChar sep l = [l]
  | [], _ => by simp [splitOnChar]
  | c :: rest, h => by
    have hc : c ≠ sep := fun hc => h (by simp [hc])
    have hrest : sep ∉ rest := fun hr => h (by simp [hr])
    rw [splitOnChar_cons sep c rest rest []
      (splitOnChar_of_not_mem sep rest hrest), if_neg hc]

theorem splitOnChar_append (sep : Char) : ∀ (a rest : Str), sep ∉ a →
    splitOnChar sep (a ++ sep :: rest) = a :: splitOnChar sep rest
  | [], rest, _ => by
    rw [List.nil_append]
    cases h : splitOnChar sep rest with
    | nil => exact absurd h (splitOnChar_ne_nil sep rest)
    | cons x t => rw [splitOnChar_cons sep sep rest x t h, if_pos rfl, ← h]
  | c :: a, rest, h => by
    have hc : c ≠ sep := fun hc => h (by simp [hc])
    have ha : sep ∉ a := fun hr => h (by simp [hr])
    have ih := splitOnChar_append sep a rest ha
    cases hs : splitOnChar sep rest with
    | nil => exact absurd hs (splitOnChar_ne_nil sep rest)
    | cons x t =>
      rw [hs] at ih
      rw [List.cons_append, splitOnChar_cons sep c _ _ _ ih, if_neg hc]

theorem splitOnChar_joinWith (sep : Char) : ∀ (ls : List Str), ls ≠ [] →
    (∀ l ∈ ls, sep ∉ l) → splitOnChar sep (joinWith sep ls) = ls
  | [], h, _ => absurd rfl h
  | [l], _, hmem => by
    simp only [joinWith]
    exact splitOnChar_of_not_mem sep l (hmem l (by simp))
  | l :: l' :: ls, _, hmem => by
    simp only [joinWith]
    rw [splitOnChar_append sep l _ (hmem l (by simp))]
    rw [splitOnChar_joinWith sep (l' :: ls) (by simp)
      (fun x hx => hmem x (List.mem_cons_of_mem l hx))]

/-! ### Properties of the closer scan -/

theorem findCloser_sound : ∀ (ls : List Str) (cs : CloserSplit),
    findCloser ls = some cs →
    ls = cs.pre ++ cs.closerLine :: cs.post ∧
      (∀ l ∈ cs.pre, findSplit closeMarker l = none) ∧
      ∃ t, findSplit closeMarker cs.closerLine = some (cs.closerBefore, t)
  | [], cs, h => by simp [findCloser] at h
  | l :: ls, cs, h => by
    simp only [findCloser] at h
    cases hf : findSplit closeMarker l with
    | some p =>
      rw [hf] at h
      cases h
      refine ⟨rfl, by simp, p.2, ?_⟩
      simpa using hf
    | none =>
      rw [hf] at h
      cases hrec : findCloser ls with
      | none => rw [hrec] at h; exact absurd h (by simp)
      | some r =>
        rw [hrec] at h
        cases h
        obtain ⟨h1, h2, h3⟩ := findCloser_sound ls r hrec
        refine ⟨by rw [List.cons_append, ← h1], ?_, h3⟩
        intro x hx
        rcases List.mem_cons.mp hx with hx | hx
        · subst hx; exact hf
        · exact h2 x hx

theorem findCloser_append : ∀ (pre : List Str) (cl before t : Str) (post : List Str),
    (∀ l ∈ pre, findSplit closeMarker l = none) →
    findSplit closeMarker cl = some (before, t) →
    findCloser (pre ++ cl :: post) = some ⟨pre, cl, before, post⟩
  | [], cl, before, t, post, _, hcl => by
    rw [List.nil_append]
    simp [findCloser, hcl]
  | l :: pre, cl, before, t, post, hpre, hcl => by
    have hl : findSplit closeMarker l = none := hpre l (List.mem_cons_self _ _)
    have ih := findCloser_append pre cl before t post
      (fun x hx => hpre x (List.mem_cons_of_mem _ hx)) hcl
    rw [List.cons_append]
    simp [findCloser, hl, ih]

theorem findCloser_none : ∀ (ls : List Str), findCloser ls = none →
    ∀ l ∈ ls, findSplit closeMarker l = none
  | [], _, l, hl => by simp at hl
  | x :: ls, h, l, hl => by
    simp only [findCloser] at h
    cases hf : findSplit closeMarker x with
    | some p => rw [hf] at h; exact absurd h (by simp)
    | none =>
      rw [hf] at h
      cases hrec : findCloser ls with
      | some r => rw [hrec] at h; exact absurd h (by simp)
      | none =>
        rcases List.mem_cons.mp hl with hl | hl
        · subst hl; exact hf
        · exact findCloser_none ls hrec l hl

/-! ### Properties of the version-file line engine -/

theorem skipCount_append (z : List Str) : ∀ (r : List Str),
    (∀ l ∈ r, hasSub startMarker l = false) →
    skipCount (r ++ z) r.length = r.length
  | [], _ => by cases z <;> simp [skipCount]
  | l :: r, h => by
    have hl : hasSub startMarker l = false := h l (List.mem_cons_self _ _)
    have ih := skipCount_append z r (fun x hx => h x (List.mem_cons_of_mem _ hx))
    simp only [List.cons_append, List.length_cons, skipCount, hl]
    simp [ih]

theorem processGo_nil (ctx : RenderCtx) : ∀ (f : Nat),
    processVersionLinesGo ctx f [] = ([], true)
  | 0 => rfl
  | _ + 1 => rfl

theorem processGo_id (ctx : RenderCtx) : ∀ (f : Nat) (ls : List Str),
    ls.length ≤ f → (∀ l ∈ ls, findSplit closeMarker l = none) →
    processVersionLinesGo ctx f ls = (ls, true)
  | f, [], _, _ => processGo_nil ctx f
  | 0, line :: rest, hf, _ => by simp at hf
  | f + 1, line :: rest, hf, h => by
    have hline : findSplit startMarker line = none :=
      no_close_no_start line (h line (List.mem_cons_self _ _))
    have hrest : rest.length ≤ f := by simp [List.length_cons] at hf; omega
    have ih := processGo_id ctx f rest hrest
      (fun x hx => h x (List.mem_cons_of_mem _ hx))
    simp only [processVersionLinesGo, hline, ih]

theorem processGo_ne_nil (ctx : RenderCtx) (f : Nat) (ls : List Str) (h : ls ≠ []) :
    (processVersionLinesGo ctx f ls).1 ≠ [] := by
  cases f with
  | zero => simpa using h
  | succ f =>
    cases ls with
    | nil => exact absurd rfl h
    | cons line rest =>
      simp only [processVersionLinesGo]
      cases hm : findSplit startMarker line with
      | none => simp [hm]
      | some q =>
        cases hcm : findSplit closeMarker q.2 with
        | some p => simp [hm, hcm]
        | none =>
          cases hcl : findCloser rest with
          | none => simp [hm, hcm, hcl]
          | some cs => simp [hm, hcm, hcl]

theorem processGo_no_newline (ctx : RenderCtx) : ∀ (f : Nat) (ls : List Str),
    (∀ l ∈ ls, '\n' ∉ l) →
    ∀ l ∈ (processVersionLinesGo ctx f ls).1, '\n' ∉ l
  | 0, ls, h => h
  | f + 1, [], _ => by simp [processGo_nil]
  | f + 1, line :: rest, h => by
    have hline := h line (List.mem_cons_self _ _)
    have hrest : ∀ l ∈ rest, '\n' ∉ l := fun x hx => h x (List.mem_cons_of_mem _ hx)
    cases hm : findSplit startMarker line with
    | none =>
      simp only [processVersionLinesGo, hm]
      intro l hl
      rcases List.mem_cons.mp hl with hl | hl
      · subst hl; exact hline
      · exact processGo_no_newline ctx f rest hrest l hl
    | some q =>
      cases hcm : findSplit closeMarker q.2 with
      | some p =>
        simp only [processVersionLinesGo, hm, hcm]
        intro l hl
        rcases List.mem_cons.mp hl with hl | hl
        · subst hl; exact hline
        · rcases List.mem_append.mp hl with hl | hl
          · exact splitOnChar_not_mem '\n' _ l hl
          · exact processGo_no_newline ctx f (rest.drop _)
              (fun x hx => hrest x (List.drop_subset _ _ hx)) l hl
      | none =>
        cases hcl : findCloser rest with
        | none =>
          simp only [processVersionLinesGo, hm, hcm, hcl]
          intro l hl
          rcases List.mem_cons.mp hl with hl | hl
          · subst hl; exact hline
          · exact processGo_no_newline ctx f rest hrest l hl
        | some cs =>
          simp only [processVersionLinesGo, hm, hcm, hcl]
          obtain ⟨heq, _, _⟩ := findCloser_sound rest cs hcl
          have hpost : ∀ x ∈ cs.post, '\n' ∉ x := fun x hx =>
            hrest x (by rw [heq]; exact List.mem_append_right _ (List.mem_cons_of_mem _ hx))
          have hpremem : ∀ x ∈ cs.pre, '\n' ∉ x := fun x hx =>
            hrest x (by rw [heq]; exact List.mem_append_left _ hx)
          have hclmem : '\n' ∉ cs.closerLine :=
            hrest _ (by rw [heq]; exact List.mem_append_right _ (List.mem_cons_self _ _))
          intro l hl
          rcases List.mem_cons.mp hl with hl | hl
          · subst hl; exact hline
          rcases List.mem_append.mp hl with hl | hl
          · exact hpremem l hl
          rcases List.mem_cons.mp hl with hl | hl
          · subst hl; exact hclmem
          rcases List.mem_append.mp hl with hl | hl
          · exact splitOnChar_not_mem '\n' _ l hl
          · exact processGo_no_newline ctx f (cs.post.drop _)
              (fun x hx => hpost x (List.drop_subset _ _ hx)) l hl

theorem processGo_idem (ctx : RenderCtx) : ∀ (f : Nat) (ls : List Str) (f₂ : Nat),
    ls.length ≤ f → (processVersionLinesGo ctx f ls).2 = true →
    (processVersionLinesGo ctx f ls).1.length ≤ f₂ →
    processVersionLinesGo ctx f₂ (processVersionLinesGo ctx f ls).1 =
      ((processVersionLinesGo ctx f ls).1, true)
  | 0, ls, f₂, hf, _, _ => by
    have hnil : ls = [] := List.length_eq_zero.mp (Nat.le_zero.mp hf)
    subst hnil
    simp [processGo_nil]
  | f + 1, [], f₂, _, _, _ => by simp [processGo_nil]
  | f + 1, line :: rest, f₂, hf, hclean, hf₂ => by
    have hrest_le : rest.length ≤ f := by simp [List.length_cons] at hf; omega
    cases hm : findSplit startMarker line with
    | none =>
      simp only [processVersionLinesGo, hm] at hclean hf₂ ⊢
      cases f₂ with
      | zero => simp at hf₂
      | succ g =>
        have hg : (processVersionLinesGo ctx f rest).1.length ≤ g := by
          simp [List.length_cons] at hf₂; omega
        simp only [processVersionLinesGo, hm]
        rw [processGo_idem ctx f rest g hrest_le hclean hg]
    | some q =>
      cases hcm : findSplit closeMarker q.2 with
      | some p =>
        simp only [processVersionLinesGo, hm, hcm] at hclean hf₂ ⊢
        rw [Bool.and_eq_true] at hclean
        obtain ⟨hall, hr2⟩ := hclean
        have hmarkerless : ∀ l ∈ splitLines (renderTemplate ctx (trim p.1)),
            hasSub startMarker l = false := by
          intro l hl
          have := List.all_eq_true.mp hall l hl
          simpa using this
        cases f₂ with
        | zero => simp at hf₂
        | succ g =>
          have hg : (processVersionLinesGo ctx f
              (rest.drop (skipCount rest (splitLines (renderTemplate ctx (trim p.1))).length))).1.length ≤ g := by
            simp [List.length_cons, List.length_append] at hf₂; omega
          have hdrop_le : (rest.drop (skipCount rest
              (splitLines (renderTemplate ctx (trim p.1))).length)).length ≤ f := by
            have := List.length_drop (skipCount rest
              (splitLines (renderTemplate ctx (trim p.1))).length) rest
            omega
          simp only [processVersionLinesGo, hm, hcm]
          rw [skipCount_append _ _ hmarkerless, List.drop_left,
            processGo_idem ctx f _ g hdrop_le hr2 hg]
          simp [hall]
      | none =>
        cases hcl : findCloser rest with
        | none =>
          have hid : processVersionLinesGo ctx f rest = (rest, true) :=
            processGo_id ctx f rest hrest_le (findCloser_none rest hcl)
          simp only [processVersionLinesGo, hm, hcm, hcl, hid] at hclean hf₂ ⊢
          cases f₂ with
          | zero => simp at hf₂
          | succ g =>
            have hg : rest.length ≤ g := by simp [List.length_cons] at hf₂; omega
            have hid2 : processVersionLinesGo ctx g rest = (rest, true) :=
              processGo_id ctx g rest hg (findCloser_none rest hcl)
            simp only [processVersionLinesGo, hm, hcm, hcl, hid2]
        | some cs =>
          obtain ⟨heq, hpre, t, hsome⟩ := findCloser_sound rest cs hcl
          have hlen : rest.length = cs.pre.length + cs.post.length + 1 := by
            rw [heq]; simp [List.length_append]; omega
          simp only [processVersionLinesGo, hm, hcm, hcl] at hclean hf₂ ⊢
          rw [Bool.and_eq_true] at hclean
          obtain ⟨hall, hr2⟩ := hclean
          have hmarkerless : ∀ l ∈ splitLines (renderTemplate ctx (trim (joinLines
              (trim q.2 :: (cs.pre.map trim ++ [trim cs.closerBefore]))))),
              hasSub startMarker l = false := by
            intro l hl
            have := List.all_eq_true.mp hall l hl
            simpa using this
          cases f₂ with
          | zero => simp at hf₂
          | succ g =>
            have hg : (processVersionLinesGo ctx f
                (cs.post.drop (skipCount cs.post (splitLines (renderTemplate ctx (trim (joinLines
                  (trim q.2 :: (cs.pre.map trim ++ [trim cs.closerBefore])))))).length))).1.length ≤ g := by
              simp [List.length_cons, List.length_append] at hf₂; omega
            have hdrop_le : (cs.post.drop (skipCount cs.post (splitLines (renderTemplate ctx (trim (joinLines
                (trim q.2 :: (cs.pre.map trim ++ [trim cs.closerBefore])))))).length)).length ≤ f := by
              have := List.length_drop (skipCount cs.post (splitLines (renderTemplate ctx (trim (joinLines
                (trim q.2 :: (cs.pre.map trim ++ [trim cs.closerBefore])))))).length) cs.post
              omega
            simp only [processVersionLinesGo, hm, hcm,
              findCloser_append cs.pre cs.closerLine cs.closerBefore t _ hpre hsome]
            rw [skipCount_append _ _ hmarkerless, List.drop_left,
              processGo_idem ctx f _ g hdrop_le hr2 hg]
            simp [hall]

/-! ### Content-level idempotence -/

theorem processVersionContent_stable (ctx : RenderCtx) (content : Str)
    (h : (processVersionContent ctx content).2 = true) :
    processVersionContent ctx (processVersionContent ctx content).1 =
      ((processVersionContent ctx content).1, true) := by
  have hne : (processVersionLinesGo ctx (splitLines content).length (splitLines content)).1 ≠ [] :=
    processGo_ne_nil ctx _ _ (splitOnChar_ne_nil '\n' content)
  have hnl : ∀ l ∈ (processVersionLinesGo ctx (splitLines content).length (splitLines content)).1,
      '\n' ∉ l :=
    processGo_no_newline ctx _ _ (splitOnChar_not_mem '\n' content)
  have hsplit : splitLines (joinLines
      (processVersionLinesGo ctx (splitLines content).length (splitLines content)).1) =
      (processVersionLinesGo ctx (splitLines content).length (splitLines content)).1 :=
    splitOnChar_joinWith '\n' _ hne hnl
  have hflag : (processVersionLinesGo ctx (splitLines content).length (splitLines content)).2 = true := h
  have hidem := processGo_idem ctx (splitLines content).length (splitLines content)
    (processVersionLinesGo ctx (splitLines content).length (splitLines content)).1.length
    (le_refl _) hflag (le_refl _)
  simp only [processVersionContent, processVersionLines, hsplit, hidem]

/-! ### Decimal rendering and parsing -/

theorem digit_facts : ∀ d : Nat, d < 10 →
    (Nat.digitChar d).isDigit = true ∧ (Nat.digitChar d).toNat - 48 = d := by
  decide

theorem digitsVal_append_digit (a : Str) (c : Char) :
    digitsVal (a ++ [c]) = digitsVal a * 10 + (c.toNat - 48) := by
  simp [digitsVal, List.foldl_append]

theorem natCharsGo_spec : ∀ (fuel n : Nat), n < fuel →
    (natCharsGo fuel n).all Char.isDigit = true ∧
      digitsVal (natCharsGo fuel n) = n ∧ natCharsGo fuel n ≠ []
  | 0, n, h => absurd h (by omega)
  | fuel + 1, n, h => by
    by_cases hn : n < 10
    · simp only [natCharsGo, if_pos hn]
      refine ⟨by simp [(digit_facts n hn).1], ?_, by simp⟩
      simp [digitsVal, (digit_facts n hn).2]
    · have hdiv : n / 10 < fuel := by omega
      obtain ⟨h1, h2, h3⟩ := natCharsGo_spec fuel (n / 10) hdiv
      simp only [natCharsGo, if_neg hn]
      refine ⟨?_, ?_, by simp⟩
      · rw [List.all_append, h1]
        simp [(digit_facts (n % 10) (by omega)).1]
      · rw [digitsVal_append_digit, h2, (digit_facts (n % 10) (by omega)).2]
        omega

theorem natChars_all_digits (n : Nat) : (natChars n).all Char.isDigit = true :=
  (natCharsGo_spec (n + 1) n (by omega)).1

theorem digitsVal_natChars (n : Nat) : digitsVal (natChars n) = n :=
  (natCharsGo_spec (n + 1) n (by omega)).2.1

theorem natChars_ne_nil (n : Nat) : natChars n ≠ [] :=
  (natCharsGo_spec (n + 1) n (by omega)).2.2

theorem natChars_inj (m n : Nat) (h : natChars m = natChars n) : m = n := by
  have := digitsVal_natChars m
  rw [h, digitsVal_natChars] at this
  omega

theorem jsNumber_natChars (n : Nat) : jsNumber (natChars n) = some n := by
  rw [jsNumber, if_neg (natChars_ne_nil n), if_pos (natChars_all_digits n),
    digitsVal_natChars]

theorem natChars_not_dot (n : Nat) : '.' ∉ natChars n := by
  intro hmem
  have := List.all_eq_true.mp (natChars_all_digits n) '.' hmem
  simp [Char.isDigit] at this

theorem splitOnChar_verStr (major minor patch : Nat) :
    splitOnChar '.' (verStr major minor patch) =
      [natChars major, natChars minor, natChars patch] := by
  rw [verStr]
  simp only [List.append_assoc, List.cons_append]
  rw [splitOnChar_append '.' _ _ (natChars_not_dot major),
    splitOnChar_append '.' _ _ (natChars_not_dot minor),
    splitOnChar_of_not_mem '.' _ (natChars_not_dot patch)]

/-! ### Properties of the output-path derivation -/

theorem replaceAllGo_length_le (pat : Str) : ∀ (fuel : Nat) (s : Str),
    (replaceAllGo pat [] fuel s).length ≤ s.length
  | 0, s => le_refl _
  | fuel + 1, s => by
    simp only [replaceAllGo]
    cases hf : findSplit pat s with
    | none => exact le_refl _
    | some p =>
      have hs := findSplit_sound pat s p hf
      have ih := replaceAllGo_length_le pat fuel p.2
      have : s.length = p.1.length + pat.length + p.2.length := by
        simp only [hs, List.length_append]
      simp only [List.length_append, List.length_nil]
      omega

theorem replaceAll_tpl_shorter (pat s : Str) (hpat : pat ≠ [])
    (h : hasSub pat s = true) : (replaceAll pat [] s).length < s.length := by
  rw [hasSub] at h
  cases hf : findSplit pat s with
  | none => rw [hf] at h; simp at h
  | some p =>
    have hs := findSplit_sound pat s p hf
    have hlen : s.length = p.1.length + pat.length + p.2.length := by
      simp only [hs, List.length_append]
    have hpatlen : 1 ≤ pat.length := by
      cases pat with
      | nil => exact absurd rfl hpat
      | cons c cs => simp
    have hfuel : s.length = (s.length - 1) + 1 := by omega
    rw [replaceAll, hfuel]
    simp only [replaceAllGo, hf]
    have ih := replaceAllGo_length_le pat (s.length - 1) p.2
    simp only [List.length_append, List.length_nil]
    omega

theorem baseNameOf_decomp (p : Str) : dirPartOf p ++ baseNameOf p = p := by
  rw [dirPartOf]
  set b := baseNameOf p with hb
  have hu : ∃ u, p = u ++ b := by
    refine ⟨(p.reverse.dropWhile (fun c => c ≠ '/')).reverse, ?_⟩
    have hrev : p.reverse = b.reverse ++ p.reverse.dropWhile (fun c => c ≠ '/') := by
      rw [hb, baseNameOf, List.reverse_reverse]
      exact (List.takeWhile_append_dropWhile _ _).symm
    have h2 := congrArg List.reverse hrev
    simpa using h2
  obtain ⟨u, hu⟩ := hu
  rw [hu]
  have hl : (u ++ b).length - b.length = u.length := by simp [List.length_append]
  rw [hl, List.take_left]

theorem splitExt_decomp (base : Str) : (splitExt base).1 ++ (splitExt base).2 = base := by
  rw [splitExt]
  split
  · simp
  · split
    · simp
    · exact List.take_append_drop _ base

theorem splitExt_length (base : Str) :
    (splitExt base).1.length + (splitExt base).2.length = base.length := by
  have := congrArg List.length (splitExt_decomp base)
  simpa [List.length_append] using this

theorem outputPathFor_ne (p : Str) : outputPathFor p ≠ p := by
  intro h
  have hlen := congrArg List.length h
  rw [outputPathFor] at hlen
  by_cases htpl : hasSub ((".tpl").toList) p = true
  · rw [if_pos htpl] at hlen
    have := replaceAll_tpl_shorter ((".tpl").toList) p (by decide) htpl
    omega
  · rw [if_neg htpl] at hlen
    have hb := congrArg List.length (baseNameOf_decomp p)
    have he := splitExt_length (baseNameOf p)
    have h4 : ((".new").toList).length = 4 := by decide
    simp only [List.length_append] at hlen hb
    omega

/-! ### Claim theorems -/

/-- Claim C1, counterexample to the claim as stated: for the render context
whose version string is itself a start-marker occurrence, running the
engine a second time on its own output changes the content again, so
`processVersionFiles` is not idempotent for every render context. -/
theorem processVersionFiles_idempotence_ce :
    (processVersionContent
        ⟨("%%release-manager:x%%").toList, ("0").toList, ("0").toList, ("0").toList⟩
        (processVersionContent
          ⟨("%%release-manager:x%%").toList, ("0").toList, ("0").toList, ("0").toList⟩
          (("A %%release-manager:\x7b\x7bversion\x7d\x7d%%\nimpl\ntail").toList)).1).1 ≠
      (processVersionContent
        ⟨("%%release-manager:x%%").toList, ("0").toList, ("0").toList, ("0").toList⟩
        (("A %%release-manager:\x7b\x7bversion\x7d\x7d%%\nimpl\ntail").toList)).1 := by
  decide

/-- Claim C1, amended: `processVersionFiles` run a second time with the same
render context on its own output produces byte-identical content, provided
no re-rendered implementation line of the first run contains the template
start marker (the cleanliness flag of the engine); the implementation block
left behind by run N then has exactly as many lines as the rendered
template, which is what run N+1 discards and rewrites. -/
theorem processVersionFiles_idempotent (ctx : RenderCtx) (content : Str)
    (h : (processVersionContent ctx content).2 = true) :
    (processVersionContent ctx (processVersionContent ctx content).1).1 =
      (processVersionContent ctx content).1 := by
  rw [processVersionContent_stable ctx content h]

/-- Claim C1 witness: the amended idempotence theorem applied to a concrete
single-line-template file with version 1.2.3. -/
theorem processVersionFiles_idempotent_witness :
    (processVersionContent
        ⟨("1.2.3").toList, ("1").toList, ("2").toList, ("3").toList⟩
        (("// %%release-manager: const X = \"v\x7b\x7bversion\x7d\x7d\"%%\nconst X = \"v9.9.9\"\ntail").toList)).2 = true ∧
    (processVersionContent
        ⟨("1.2.3").toList, ("1").toList, ("2").toList, ("3").toList⟩
        (processVersionContent
          ⟨("1.2.3").toList, ("1").toList, ("2").toList, ("3").toList⟩
          (("// %%release-manager: const X = \"v\x7b\x7bversion\x7d\x7d\"%%\nconst X = \"v9.9.9\"\ntail").toList)).1).1 =
      (processVersionContent
        ⟨("1.2.3").toList, ("1").toList, ("2").toList, ("3").toList⟩
        (("// %%release-manager: const X = \"v\x7b\x7bversion\x7d\x7d\"%%\nconst X = \"v9.9.9\"\ntail").toList)).1 :=
  ⟨by decide, processVersionFiles_idempotent _ _ (by decide)⟩

/-- Claim C2: for every current version with major component 0, a major
aggregated kind is dampened to exactly a minor increment, and the
dampening step changes the kind exactly when the major component is 0
(major dampens to minor, minor to patch, patch stays patch). -/
theorem determineVersionBump_pre1_major (v : SemVer) (bumps : List (Option Bump)) :
    (v.major = 0 → aggregateBumps bumps = some Bump.major →
      determineVersionBump bumps v none = ⟨some Bump.major, ⟨0, v.minor + 1, 0⟩, v⟩) ∧
    (dampenKind v Bump.major = if v.major = 0 then Bump.minor else Bump.major) ∧
    (dampenKind v Bump.minor = if v.major = 0 then Bump.patch else Bump.minor) ∧
    (dampenKind v Bump.patch = Bump.patch) := by
  have hlt : (semverLt v ⟨1, 0, 0⟩ = true) ↔ v.major = 0 := by
    simp [semverLt]
  refine ⟨?_, ?_, ?_, ?_⟩
  · intro h0 hagg
    have hlt' : semverLt v ⟨1, 0, 0⟩ = true := hlt.mpr h0
    simp [determineVersionBump, hagg, dampenKind, hlt', semverInc, h0]
  · by_cases h0 : v.major = 0
    · rw [dampenKind, if_pos (hlt.mpr h0), if_pos h0]
    · have hf : ¬(semverLt v ⟨1, 0, 0⟩ = true) := fun hx => h0 (hlt.mp hx)
      rw [dampenKind, if_neg hf, if_neg h0]
  · by_cases h0 : v.major = 0
    · rw [dampenKind, if_pos (hlt.mpr h0), if_pos h0]
    · have hf : ¬(semverLt v ⟨1, 0, 0⟩ = true) := fun hx => h0 (hlt.mp hx)
      rw [dampenKind, if_neg hf, if_neg h0]
  · rw [dampenKind]
    split <;> rfl

/-- Claim C2 witness: current version 0.4.0 with a lone major commit bumps
to 0.5.0, a minor increment. -/
theorem determineVersionBump_pre1_major_witness :
    determineVersionBump [some Bump.major] ⟨0, 4, 0⟩ none =
      ⟨some Bump.major, ⟨0, 5, 0⟩, ⟨0, 4, 0⟩⟩ :=
  (determineVersionBump_pre1_major ⟨0, 4, 0⟩ [some Bump.major]).1 rfl (by decide)

/-- Claim C3, counterexample to the claim as stated: the pipeline on
commits feat and fix(no-release) at current version 0.4.0 does not return
0.5.0 (it returns 0.4.1, because pre-1.0 dampening converts the minor
aggregate to a patch increment). -/
theorem pipeline_scenario_0_4_0_ce :
    (releasePipeline
        [⟨some (("feat").toList), none, []⟩,
         ⟨some (("fix").toList), some (("no-release").toList), []⟩]
        ⟨0, 4, 0⟩ none).newVersion ≠ (⟨0, 5, 0⟩ : SemVer) := by
  decide

/-- Claim C3, amended: for the commit list feat and fix(no-release) at
current version 0.4.0, the excluded no-release commit is dropped, the
aggregate kind is minor, pre-1.0 dampening converts the minor kind to a
patch increment, and the pipeline returns newVersion 0.4.1. -/
theorem pipeline_scenario_0_4_0 :
    analyzeCommits
        [⟨some (("feat").toList), none, []⟩,
         ⟨some (("fix").toList), some (("no-release").toList), []⟩] =
      [(⟨some (("feat").toList), none, []⟩, some Bump.minor)] ∧
    aggregateBumps
        ((analyzeCommits
          [⟨some (("feat").toList), none, []⟩,
           ⟨some (("fix").toList), some (("no-release").toList), []⟩]).map (fun rc => rc.2)) =
      some Bump.minor ∧
    releasePipeline
        [⟨some (("feat").toList), none, []⟩,
         ⟨some (("fix").toList), some (("no-release").toList), []⟩]
        ⟨0, 4, 0⟩ none =
      ⟨some Bump.minor, ⟨0, 4, 1⟩, ⟨0, 4, 0⟩⟩ :=
  ⟨by decide, by decide, by decide⟩

/-- Claim C4: the commit classifier is a total function obeying the
priority rules: a breaking marker or a breaking note maps to major
regardless of type; otherwise feat maps to minor; otherwise fix, perf and
refactor map to patch; every other type, including a missing one, maps to
none. -/
theorem getBumpTypeForCommit_classification (c : ParsedCommit) :
    ((hasBreakingChangeMarker c = true ∨ hasBreakingChangeNote c = true) →
      getBumpTypeForCommit c = some Bump.major) ∧
    (hasBreakingChangeMarker c = false → hasBreakingChangeNote c = false →
      c.type = some (("feat").toList) → getBumpTypeForCommit c = some Bump.minor) ∧
    (hasBreakingChangeMarker c = false → hasBreakingChangeNote c = false →
      (c.type = some (("fix").toList) ∨ c.type = some (("perf").toList) ∨
        c.type = some (("refactor").toList)) →
      getBumpTypeForCommit c = some Bump.patch) ∧
    (hasBreakingChangeMarker c = false → hasBreakingChangeNote c = false →
      c.type ≠ some (("feat").toList) → c.type ≠ some (("fix").toList) →
      c.type ≠ some (("perf").toList) → c.type ≠ some (("refactor").toList) →
      getBumpTypeForCommit c = none) := by
  refine ⟨?_, ?_, ?_, ?_⟩
  · intro h
    rw [getBumpTypeForCommit, if_pos ((Bool.or_eq_true _ _).mpr h)]
  · intro h1 h2 h3
    rw [getBumpTypeForCommit, if_neg (by simp [h1, h2]), if_pos h3]
  · intro h1 h2 h3
    have hnf : ¬(c.type = some (("feat").toList)) := by
      rcases h3 with h | h | h <;> rw [h] <;> decide
    rw [getBumpTypeForCommit, if_neg (by simp [h1, h2]), if_neg hnf, if_pos h3]
  · intro h1 h2 h3 h4 h5 h6
    rw [getBumpTypeForCommit, if_neg (by simp [h1, h2]), if_neg h3, if_neg ?_]
    intro hx
    rcases hx with h | h | h
    exacts [h4 h, h5 h, h6 h]

/-- Claim C4 witness: a commit with a breaking marker maps to major, and a
docs commit maps to none. -/
theorem getBumpTypeForCommit_classification_witness :
    getBumpTypeForCommit ⟨some (("chore!").toList), none, []⟩ = some Bump.major ∧
    getBumpTypeForCommit ⟨some (("docs").toList), none, []⟩ = none :=
  ⟨(getBumpTypeForCommit_classification _).1 (Or.inl (by decide)),
   (getBumpTypeForCommit_classification _).2.2.2 (by decide) (by decide)
     (by decide) (by decide) (by decide) (by decide)⟩

/-- Claim C5, counterexample to the claim as stated: a commit whose type
token is the literal `chore!` (breaking marker attached) with a breaking
note is not excluded from the changelog, and it does contribute a major
bump through the pipeline. -/
theorem isExcluded_chore_bang_ce :
    isExcludedFromChangelog
        ⟨some (("chore!").toList), none, [("BREAKING CHANGE").toList]⟩ = false ∧
    releasePipeline
        [⟨some (("chore!").toList), none, [("BREAKING CHANGE").toList]⟩]
        ⟨1, 0, 0⟩ none =
      ⟨some Bump.major, ⟨2, 0, 0⟩, ⟨1, 0, 0⟩⟩ :=
  ⟨by decide, by decide⟩

/-- Claim C5, amended: `isExcludedFromChangelog` returns true exactly for
type `chore` or scope `no-release`, and exclusion is applied before bump
aggregation, so every excluded commit (for example an exact-type `chore`
commit carrying a breaking note) contributes no bump; however a `chore!`
type token is not the type `chore`, so such a commit is not excluded and
does contribute its major bump. -/
theorem isExcludedFromChangelog_spec (c : ParsedCommit) (cs : List ParsedCommit)
    (v : SemVer) (releaseAs : Option Str) :
    (isExcludedFromChangelog c = true ↔
      (c.type = some (("chore").toList) ∨ c.scope = some (("no-release").toList))) ∧
    (isExcludedFromChangelog c = true →
      releasePipeline (c :: cs) v releaseAs = releasePipeline cs v releaseAs) := by
  constructor
  · constructor
    · intro h
      rw [isExcludedFromChangelog] at h
      by_cases h1 : c.type = some (("chore").toList)
      · exact Or.inl h1
      · rw [if_neg h1] at h
        by_cases h2 : c.scope = some (("no-release").toList)
        · exact Or.inr h2
        · rw [if_neg h2] at h
          exact absurd h (by simp)
    · intro h
      rcases h with h | h
      · rw [isExcludedFromChangelog, if_pos h]
      · rw [isExcludedFromChangelog]
        by_cases h1 : c.type = some (("chore").toList)
        · rw [if_pos h1]
        · rw [if_neg h1, if_pos h]
  · intro h
    rw [releasePipeline, releasePipeline]
    have hdrop : analyzeCommits (c :: cs) = analyzeCommits cs := by
      rw [analyzeCommits, analyzeCommits, List.map_cons, List.filter_cons]
      simp [h]
    rw [hdrop]

/-- Claim C5 witness: an exact-type chore commit carrying a breaking note
is dropped by the pipeline, contributing nothing. -/
theorem isExcludedFromChangelog_spec_witness :
    releasePipeline
        [⟨some (("chore").toList), none, [("BREAKING CHANGE").toList]⟩]
        ⟨1, 2, 3⟩ none =
      releasePipeline [] ⟨1, 2, 3⟩ none :=
  (isExcludedFromChangelog_spec
    ⟨some (("chore").toList), none, [("BREAKING CHANGE").toList]⟩ [] ⟨1, 2, 3⟩ none).2
    (by decide)

/-- Claim C6: the manual bump command leaves a version unchanged exactly
when it already sits at the requested boundary (minor: patch is 0; major:
minor and patch are 0), and otherwise increments that component, resetting
the lower components to 0. -/
theorem applyBumpCommand_spec (major minor patch : Nat) :
    ((applyBumpCommand (verStr major minor patch) (("minor").toList) =
        verStr major minor patch) ↔ patch = 0) ∧
    (patch ≠ 0 → applyBumpCommand (verStr major minor patch) (("minor").toList) =
      verStr major (minor + 1) 0) ∧
    ((applyBumpCommand (verStr major minor patch) (("major").toList) =
        verStr major minor patch) ↔ (minor = 0 ∧ patch = 0)) ∧
    (¬(minor = 0 ∧ patch = 0) →
      applyBumpCommand (verStr major minor patch) (("major").toList) =
        verStr (major + 1) 0 0) := by
  have hsplit := splitOnChar_verStr major minor patch
  have hM : ((splitOnChar '.' (verStr major minor patch)).get? 0).bind jsNumber =
      some major := by
    rw [hsplit]
    exact jsNumber_natChars major
  have hm : ((splitOnChar '.' (verStr major minor patch)).get? 1).bind jsNumber =
      some minor := by
    rw [hsplit]
    exact jsNumber_natChars minor
  have hp : ((splitOnChar '.' (verStr major minor patch)).get? 2).bind jsNumber =
      some patch := by
    rw [hsplit]
    exact jsNumber_natChars patch
  have hverS_inj : ∀ a b c d e f : Nat, verStr a b c = verStr d e f →
      a = d ∧ b = e ∧ c = f := by
    intro a b c d e f h
    have := congrArg (splitOnChar '.') h
    rw [splitOnChar_verStr, splitOnChar_verStr] at this
    simp only [List.cons.injEq, and_true] at this
    exact ⟨natChars_inj _ _ this.1, natChars_inj _ _ this.2.1, natChars_inj _ _ this.2.2⟩
  have hnm : ¬(("minor").toList = ("major").toList) := by decide
  have hmn : ¬(("major").toList = ("minor").toList) := by decide
  have hstep : ∀ k : Str, applyBumpCommand (verStr major minor patch) k =
      (if k = ("minor").toList ∧ jsNumber (natChars patch) = some 0 then
        verStr major minor patch
      else if k = ("major").toList ∧ jsNumber (natChars minor) = some 0 ∧
          jsNumber (natChars patch) = some 0 then
        verStr major minor patch
      else if k = ("minor").toList then
        renderNum (jsNumber (natChars major)) ++ '.' ::
          renderNum ((jsNumber (natChars minor)).map (fun n => n + 1)) ++ ('.' :: ['0'])
      else if k = ("major").toList then
        renderNum ((jsNumber (natChars major)).map (fun n => n + 1)) ++
          ('.' :: '0' :: '.' :: ['0'])
      else verStr major minor patch) := by
    intro k
    simp only [applyBumpCommand]
    rw [hsplit]
    rfl
  have happm : applyBumpCommand (verStr major minor patch) (("minor").toList) =
      (if patch = 0 then verStr major minor patch else verStr major (minor + 1) 0) := by
    rw [hstep, jsNumber_natChars, jsNumber_natChars, jsNumber_natChars]
    by_cases h0 : patch = 0
    · rw [if_pos ⟨rfl, by rw [h0]⟩, if_pos h0]
    · rw [if_neg (fun hc => h0 (Option.some.inj hc.2)),
        if_neg (fun hc => hnm hc.1), if_pos rfl, if_neg h0]
      rfl
  have happM : applyBumpCommand (verStr major minor patch) (("major").toList) =
      (if minor = 0 ∧ patch = 0 then verStr major minor patch
       else verStr (major + 1) 0 0) := by
    rw [hstep, jsNumber_natChars, jsNumber_natChars, jsNumber_natChars]
    by_cases h0 : minor = 0 ∧ patch = 0
    · rw [if_neg (fun hc => hmn hc.1),
        if_pos ⟨rfl, by rw [h0.1], by rw [h0.2]⟩, if_pos h0]
    · rw [if_neg (fun hc => hmn hc.1),
        if_neg (fun hc => h0 ⟨Option.some.inj hc.2.1, Option.some.inj hc.2.2⟩),
        if_neg hmn, if_pos rfl, if_neg h0]
      rw [verStr, List.append_assoc]
      rfl
  refine ⟨?_, ?_, ?_, ?_⟩
  · rw [happm]
    constructor
    · intro h
      by_contra h0
      rw [if_neg h0] at h
      have := (hverS_inj _ _ _ _ _ _ h).2.1
      omega
    · intro h0
      rw [if_pos h0]
  · intro h0
    rw [happm, if_neg h0]
  · rw [happM]
    constructor
    · intro h
      by_contra h0
      rw [if_neg h0] at h
      have := (hverS_inj _ _ _ _ _ _ h).1
      omega
    · intro h0
      rw [if_pos h0]
  · intro h0
    rw [happM, if_neg h0]

/-- Claim C6 witness: concrete bumps at 1.0.22 and 1.1.0. -/
theorem applyBumpCommand_spec_witness :
    applyBumpCommand (verStr 1 0 22) (("minor").toList) = verStr 1 1 0 ∧
    applyBumpCommand (verStr 1 1 0) (("minor").toList) = verStr 1 1 0 ∧
    applyBumpCommand (verStr 1 1 0) (("major").toList) = verStr 2 0 0 ∧
    applyBumpCommand (verStr 2 0 0) (("major").toList) = verStr 2 0 0 :=
  ⟨(applyBumpCommand_spec 1 0 22).2.1 (by decide),
   (applyBumpCommand_spec 1 1 0).1.mpr rfl,
   (applyBumpCommand_spec 1 1 0).2.2.2 (by decide),
   (applyBumpCommand_spec 2 0 0).2.2.1.mpr ⟨rfl, rfl⟩⟩

/-- Claim C7: the decision record always satisfies newVersion at least
currentVersion in the lexicographic order on version triples, with
equality exactly when the returned bump type is none. -/
theorem determineVersionBump_monotone (bumps : List (Option Bump)) (v : SemVer)
    (releaseAs : Option Str) :
    ((determineVersionBump bumps v releaseAs).newVersion = v ∨
      semverLt v (determineVersionBump bumps v releaseAs).newVersion = true) ∧
    ((determineVersionBump bumps v releaseAs).newVersion = v ↔
      (determineVersionBump bumps v releaseAs).bumpType = none) := by
  obtain ⟨bt, hshape⟩ :
      ∃ bt : Option Bump, determineVersionBump bumps v releaseAs =
        match bt with
        | none => ⟨none, v, v⟩
        | some k => ⟨some k, semverInc v (dampenKind v k), v⟩ :=
    ⟨(match releaseAs with
      | none => aggregateBumps bumps
      | some r =>
        if r = ("major").toList then some Bump.major
        else if r = ("minor").toList then some Bump.minor
        else if r = ("patch").toList then some Bump.patch
        else aggregateBumps bumps), rfl⟩
  rw [hshape]
  cases bt with
  | none => exact ⟨Or.inl rfl, by simp⟩
  | some k =>
    dsimp only
    cases hdk : dampenKind v k with
    | major =>
      refine ⟨Or.inr ?_, ?_, ?_⟩
      · simp [semverLt, semverInc]
      · intro h
        have := congrArg SemVer.major h
        simp only [semverInc] at this
        omega
      · intro h
        simp at h
    | minor =>
      refine ⟨Or.inr ?_, ?_, ?_⟩
      · simp [semverLt, semverInc]
      · intro h
        have := congrArg SemVer.minor h
        simp only [semverInc] at this
        omega
      · intro h
        simp at h
    | patch =>
      refine ⟨Or.inr ?_, ?_, ?_⟩
      · simp [semverLt, semverInc]
      · intro h
        have := congrArg SemVer.patch h
        simp only [semverInc] at this
        omega
      · intro h
        simp at h

/-- Claim C8: template-file mode derives the output path by removing every
`.tpl` occurrence, or by inserting `.new` before the extension when no
`.tpl` occurs; the rendered content is written only to the derived output
path, which always differs from the input path, so the input template file
is never modified. -/
theorem processTemplateFiles_spec (version : Str) (fs : FS) (f content : Str)
    (hr : fs.state f = FileState.readable content)
    (hw : fs.writeOk (outputPathFor f) = true) :
    processTemplateFiles version [f] fs =
      .ok ([outputPathFor f],
        fs.write (outputPathFor f) (renderTemplate (ctxOfVersion version) content)) ∧
    (hasSub ((".tpl").toList) f = true →
      outputPathFor f = replaceAll ((".tpl").toList) [] f) ∧
    (hasSub ((".tpl").toList) f = false →
      f = dirPartOf f ++ (splitExt (baseNameOf f)).1 ++ (splitExt (baseNameOf f)).2 ∧
      outputPathFor f = dirPartOf f ++ (splitExt (baseNameOf f)).1 ++ ((".new").toList) ++
        (splitExt (baseNameOf f)).2) ∧
    (fs.write (outputPathFor f) (renderTemplate (ctxOfVersion version) content)).state f =
      fs.state f ∧
    (∀ q, q ≠ outputPathFor f →
      (fs.write (outputPathFor f) (renderTemplate (ctxOfVersion version) content)).state q =
        fs.state q) := by
  refine ⟨?_, ?_, ?_, ?_, ?_⟩
  · simp only [processTemplateFiles, hr, hw]
    rfl
  · intro h
    rw [outputPathFor, if_pos h]
  · intro h
    constructor
    · rw [List.append_assoc, splitExt_decomp, baseNameOf_decomp]
    · rw [outputPathFor, if_neg (by simpa using h)]
  · simp only [FS.write]
    rw [if_neg (fun hh => outputPathFor_ne f hh.symm)]
  · intro q hq
    simp only [FS.write]
    rw [if_neg hq]

/-- Claim C8 witness: the two path-derivation examples of the spec, the
first obtained through the theorem. -/
theorem processTemplateFiles_spec_witness :
    outputPathFor (("config.tpl.json").toList) =
      replaceAll ((".tpl").toList) [] (("config.tpl.json").toList) ∧
    outputPathFor (("config.tpl.json").toList) = (("config.json").toList) ∧
    outputPathFor (("version.js").toList) = (("version.new.js").toList) :=
  ⟨(processTemplateFiles_spec (("1.2.3").toList)
      ⟨fun _ => FileState.readable [], fun _ => true⟩
      (("config.tpl.json").toList) [] rfl rfl).2.1 (by decide),
   by decide, by decide⟩

/-- Claim C9, counterexample to the claim as stated: a batch whose first
file exists but fails on read is aborted with an error, in both modes, even
though the second file of the batch is readable and writable — an
unreadable (as opposed to missing) input is not skipped. -/
theorem processFiles_unreadable_aborts_ce :
    (FS.state
        ⟨fun q => if q = (("a").toList) then FileState.unreadable [] else FileState.readable [],
         fun _ => true⟩ (("b").toList)) = FileState.readable [] ∧
    processVersionFiles (("1.2.3").toList) [("a").toList, ("b").toList]
        ⟨fun q => if q = (("a").toList) then FileState.unreadable [] else FileState.readable [],
         fun _ => true⟩ = .error () ∧
    processTemplateFiles (("1.2.3").toList) [("a").toList, ("b").toList]
        ⟨fun q => if q = (("a").toList) then FileState.unreadable [] else FileState.readable [],
         fun _ => true⟩ = .error () :=
  ⟨rfl, rfl, rfl⟩

/-- Claim C9, amended: in both batch modes a missing input file is skipped
and the rest of the batch is still processed, while a read failure on an
existing file, like a write failure, is re-raised and aborts the batch. -/
theorem processFiles_failure_semantics (version f : Str) (rest : List Str) (fs : FS) :
    (fs.state f = FileState.missing →
      processVersionFiles version (f :: rest) fs = processVersionFiles version rest fs ∧
      processTemplateFiles version (f :: rest) fs = processTemplateFiles version rest fs) ∧
    (∀ c, fs.state f = FileState.unreadable c →
      processVersionFiles version (f :: rest) fs = .error () ∧
      processTemplateFiles version (f :: rest) fs = .error ()) ∧
    (∀ c, fs.state f = FileState.readable c → fs.writeOk f = false →
      processVersionFiles version (f :: rest) fs = .error ()) ∧
    (∀ c, fs.state f = FileState.readable c → fs.writeOk (outputPathFor f) = false →
      processTemplateFiles version (f :: rest) fs = .error ()) := by
  refine ⟨?_, ?_, ?_, ?_⟩
  · intro h
    constructor
    · simp only [processVersionFiles, h]
    · simp only [processTemplateFiles, h]
  · intro c h
    constructor
    · simp only [processVersionFiles, h]
    · simp only [processTemplateFiles, h]
  · intro c h hw
    simp only [processVersionFiles, h, hw]
    rfl
  · intro c h hw
    simp only [processTemplateFiles, h, hw]
    rfl

/-- Claim C9 witness: a missing file is skipped in both modes on a
concrete file system. -/
theorem processFiles_failure_semantics_witness :
    processVersionFiles (("1.2.3").toList) [("a").toList]
        ⟨fun _ => FileState.missing, fun _ => true⟩ =
      processVersionFiles (("1.2.3").toList) []
        ⟨fun _ => FileState.missing, fun _ => true⟩ ∧
    processTemplateFiles (("1.2.3").toList) [("a").toList]
        ⟨fun _ => FileState.missing, fun _ => true⟩ =
      processTemplateFiles (("1.2.3").toList) []
        ⟨fun _ => FileState.missing, fun _ => true⟩ :=
  (processFiles_failure_semantics (("1.2.3").toList) (("a").toList) []
    ⟨fun _ => FileState.missing, fun _ => true⟩).1 rfl

/-- Claim C10: the manual bump command is total in its requested kind: any
kind other than major and minor falls through to the unchanged current
version, for every version string. -/
theorem applyBumpCommand_unknown_kind (v k : Str)
    (h1 : k ≠ ("major").toList) (h2 : k ≠ ("minor").toList) :
    applyBumpCommand v k = v := by
  simp only [applyBumpCommand]
  rw [if_neg (fun hh => h2 hh.1), if_neg (fun hh => h1 hh.1), if_neg h2, if_neg h1]

/-- Claim C10 witness: the kind `patch` and the empty kind leave a version
string untouched. -/
theorem applyBumpCommand_unknown_kind_witness :
    applyBumpCommand (("1.2.3").toList) (("patch").toList) = (("1.2.3").toList) ∧
    applyBumpCommand (("junk").toList) [] = (("junk").toList) :=
  ⟨applyBumpCommand_unknown_kind _ _ (by decide) (by decide),
   applyBumpCommand_unknown_kind _ _ (by decide) (by decide)⟩

end ReleaseBoss
